import Mathlib

/-!
Verification of the structural algorithms of the asammdf MDF engine
(src/asammdf/mdf.py) over a shallow embedding.  Timestamps and samples are
float64 arrays in the source; the algorithms only use ordered-field
arithmetic on them, so they are embedded as rationals.  NumPy arrays become
lists, Python sets become finsets, and a Python function that can raise
becomes a function into `Except`/`Option`.
-/

namespace Asammdf

/-- In-memory signal data (class `Signal` in the source): a samples array and
a parallel timestamps array. -/
structure SigData where
  ts : List ℚ
  samples : List ℚ
  deriving DecidableEq, Repr

/-- The value `v` falls strictly inside one of the sampling intervals of
`ts`: some two consecutive timestamps `a`, `b` satisfy `a < v < b`. -/
def strictlyInside (ts : List ℚ) (v : ℚ) : Bool :=
  (ts.zip ts.tail).any fun p => decide (p.1 < v) && decide (v < p.2)

/-- Check of the lower cut bound: `start <= t`, where a missing bound is
unbounded. -/
def lowerOk (start : Option ℚ) (t : ℚ) : Bool :=
  match start with
  | none => true
  | some s => decide (s ≤ t)

/-- Check of the upper cut bound: `t <= stop`, where a missing bound is
unbounded. -/
def upperOk (stop : Option ℚ) (t : ℚ) : Bool :=
  match stop with
  | none => true
  | some s => decide (t ≤ s)

/-- Linear interpolation of a sample value at time `t` from a list of
(timestamp, sample) pairs. -/
def interpAt : List (ℚ × ℚ) → ℚ → ℚ
  | [], _ => 0
  | [(_, v)], _ => v
  | (t0, v0) :: (t1, v1) :: rest, t =>
    if t ≤ t1 then
      if t1 = t0 then v0 else v0 + (v1 - v0) * (t - t0) / (t1 - t0)
    else interpAt ((t1, v1) :: rest) t

/-- The (timestamp, sample) pairs of a cut that fall inside the cut
interval. -/
def keptList (sig : SigData) (start stop : Option ℚ) : List (ℚ × ℚ) :=
  (sig.ts.zip sig.samples).filter fun p => lowerOk start p.1 && upperOk stop p.1

/-- The synthesized interpolated boundary sample at the start bound, when
`include_ends` is set and the bound falls strictly inside a sampling
interval (and respects the upper bound, so that the output guarantee
`start <= t <= stop` is kept). -/
def startSynthList (sig : SigData) (start stop : Option ℚ) (includeEnds : Bool) :
    List (ℚ × ℚ) :=
  match start with
  | some s =>
    if includeEnds && strictlyInside sig.ts s && upperOk stop s then
      [(s, interpAt (sig.ts.zip sig.samples) s)]
    else []
  | none => []

/-- The synthesized interpolated boundary sample at the stop bound. -/
def stopSynthList (sig : SigData) (start stop : Option ℚ) (includeEnds : Bool) :
    List (ℚ × ℚ) :=
  match stop with
  | some s =>
    if includeEnds && strictlyInside sig.ts s && lowerOk start s then
      [(s, interpAt (sig.ts.zip sig.samples) s)]
    else []
  | none => []

/-- All (timestamp, sample) pairs of a cut signal. -/
def cutPairs (sig : SigData) (start stop : Option ℚ) (includeEnds : Bool) :
    List (ℚ × ℚ) :=
  startSynthList sig start stop includeEnds ++ keptList sig start stop ++
    stopSynthList sig start stop includeEnds

/-- Modelled from the spec: method `Signal.cut` of the signal module, which
is not under src/ (src/asammdf/mdf.py lines 772-797 call it).  Per the spec,
the output contains only the samples with `start <= t <= stop`, and when
`include_ends` is set and a bound falls strictly inside a sampling interval
an interpolated boundary sample is synthesized at that bound; a synthesized
bound is itself subject to the `start <= t <= stop` output guarantee. -/
def Signal.cut (sig : SigData) (start stop : Option ℚ) (includeEnds : Bool) :
    SigData :=
  ⟨(cutPairs sig start stop includeEnds).map Prod.fst,
    (cutPairs sig start stop includeEnds).map Prod.snd⟩

/-- Embedding of `np.searchsorted(master, v, side="left")` on a sorted
array: the number of elements strictly below `v`. -/
def searchsortedLeft (master : List ℚ) (v : ℚ) : ℕ :=
  master.countP fun t => decide (t < v)

/-- Embedding of `np.searchsorted(master, v, side="right")` on a sorted
array: the number of elements not above `v`. -/
def searchsortedRight (master : List ℚ) (v : ℚ) : ℕ :=
  master.countP fun t => decide (t ≤ v)

/-- Fragment interval decision of `MDF.cut` (src/asammdf/mdf.py lines
713-763) for a fragment with master timestamps `master`: `none` when the
fragment is skipped (the `break`/`continue` paths, no data in the cut
interval), otherwise `some (fragment_start, fragment_stop, needs_cutting)`. -/
def cutFragmentBounds (master : List ℚ) (start stop : Option ℚ) :
    Option (Option ℚ × Option ℚ × Bool) :=
  match master with
  | [] => none
  | t0 :: rest =>
    let m := t0 :: rest
    let tlast := m.getLastD t0
    match start, stop with
    | none, none => some (none, none, false)
    | none, some sp =>
      if t0 > sp then none
      else
        let fstop := min sp tlast
        some (none, some fstop,
          decide (searchsortedRight m fstop ≠ m.length))
    | some st, none =>
      if tlast < st then none
      else
        let fstart := max st t0
        some (some fstart, none, decide (searchsortedLeft m fstart ≠ 0))
    | some st, some sp =>
      if t0 > sp then none
      else if tlast < st then none
      else
        let fstart := max st t0
        let fstop := min sp tlast
        some (some fstart, some fstop,
          decide (¬(searchsortedLeft m fstart = 0 ∧
            searchsortedRight m fstop = m.length)))

/-- The `needs_cutting` branch of `MDF.cut` (src/asammdf/mdf.py lines
772-797): the master array is cut through `Signal.cut`, then every signal of
the group is cut to the end points of the new master; when the new master is
empty nothing is appended, which ends as a zero-cycle group (lines
837-859). -/
def cutGroupCore (sig : SigData) (fstart fstop : Option ℚ) (includeEnds : Bool) :
    SigData :=
  match (Signal.cut ⟨sig.ts, sig.ts⟩ fstart fstop includeEnds).ts with
  | [] => ⟨[], []⟩
  | m0 :: mrest =>
    Signal.cut sig (some m0) (some ((m0 :: mrest).getLastD m0)) includeEnds

/-- One-group, one-fragment model of `MDF.cut` (src/asammdf/mdf.py lines
691-859): the fragment interval logic, the cut of the master array through
`Signal.cut`, the cut of every signal of the group to the end points of the
new master, and the zero-cycle group appended when the cut interval holds no
data.  The group is represented by one signal whose timestamps are the
master. -/
def MDF.cutGroup (sig : SigData) (start stop : Option ℚ) (includeEnds : Bool) :
    SigData :=
  match cutFragmentBounds sig.ts start stop with
  | none => ⟨[], []⟩
  | some (fstart, fstop, needsCutting) =>
    if needsCutting then cutGroupCore sig fstart fstop includeEnds
    else sig

/-! Helper lemmas about the cut model. -/

lemma lowerOk_trans {start : Option ℚ} {x y : ℚ} (h : lowerOk start x = true)
    (hxy : x ≤ y) : lowerOk start y = true := by
  cases start with
  | none => rfl
  | some s =>
    simp only [lowerOk, decide_eq_true_eq] at h ⊢
    exact le_trans h hxy

lemma upperOk_trans {stop : Option ℚ} {x y : ℚ} (h : upperOk stop x = true)
    (hxy : y ≤ x) : upperOk stop y = true := by
  cases stop with
  | none => rfl
  | some s =>
    simp only [upperOk, decide_eq_true_eq] at h ⊢
    exact le_trans hxy h

lemma mem_keptList {sig : SigData} {start stop : Option ℚ} {p : ℚ × ℚ}
    (h : p ∈ keptList sig start stop) :
    lowerOk start p.1 = true ∧ upperOk stop p.1 = true := by
  have := (List.mem_filter.1 h).2
  simpa [Bool.and_eq_true] using this

lemma mem_startSynthList {sig : SigData} {start stop : Option ℚ} {ie : Bool}
    {p : ℚ × ℚ} (h : p ∈ startSynthList sig start stop ie) :
    ∃ s, start = some s ∧ p.1 = s ∧ ie = true ∧
      strictlyInside sig.ts s = true ∧ upperOk stop s = true := by
  cases start with
  | none => simp [startSynthList] at h
  | some s =>
    simp only [startSynthList] at h
    split_ifs at h with hc
    · simp only [List.mem_singleton] at h
      simp only [Bool.and_eq_true] at hc
      exact ⟨s, rfl, by rw [h], hc.1.1, hc.1.2, hc.2⟩
    · simp at h

lemma mem_stopSynthList {sig : SigData} {start stop : Option ℚ} {ie : Bool}
    {p : ℚ × ℚ} (h : p ∈ stopSynthList sig start stop ie) :
    ∃ s, stop = some s ∧ p.1 = s ∧ ie = true ∧
      strictlyInside sig.ts s = true ∧ lowerOk start s = true := by
  cases stop with
  | none => simp [stopSynthList] at h
  | some s =>
    simp only [stopSynthList] at h
    split_ifs at h with hc
    · simp only [List.mem_singleton] at h
      simp only [Bool.and_eq_true] at hc
      exact ⟨s, rfl, by rw [h], hc.1.1, hc.1.2, hc.2⟩
    · simp at h

lemma signalCut_mem_bounds {sig : SigData} {start stop : Option ℚ} {ie : Bool}
    {t : ℚ} (h : t ∈ (Signal.cut sig start stop ie).ts) :
    lowerOk start t = true ∧ upperOk stop t = true := by
  simp only [Signal.cut, cutPairs, List.map_append, List.mem_append,
    List.mem_map] at h
  rcases h with (⟨p, hp, rfl⟩ | ⟨p, hp, rfl⟩) | ⟨p, hp, rfl⟩
  · obtain ⟨s, hseq, hps, _, _, hup⟩ := mem_startSynthList hp
    subst hseq
    refine ⟨by simp [lowerOk, hps], by rw [hps]; exact hup⟩
  · exact mem_keptList hp
  · obtain ⟨s, hseq, hps, _, _, hlo⟩ := mem_stopSynthList hp
    subst hseq
    refine ⟨by rw [hps]; exact hlo, by simp [upperOk, hps]⟩

lemma sorted_head_le {t0 : ℚ} {rest : List ℚ}
    (hs : (t0 :: rest).Sorted (· ≤ ·)) {x : ℚ} (hx : x ∈ t0 :: rest) :
    t0 ≤ x := by
  rcases List.mem_cons.1 hx with rfl | hx
  · exact le_refl x
  · exact List.rel_of_sorted_cons hs x hx

lemma getLastD_mem : ∀ (l : List ℚ), l ≠ [] → ∀ d, l.getLastD d ∈ l
  | [a], _, d => by simp
  | a :: b :: t, _, d => by
    have ih := getLastD_mem (b :: t) (by simp) a
    rw [List.getLastD_cons]
    exact List.mem_cons_of_mem a ih

lemma le_getLastD_of_sorted :
    ∀ {l : List ℚ}, l.Sorted (· ≤ ·) → ∀ {x : ℚ}, x ∈ l → ∀ d, x ≤ l.getLastD d
  | [], _, _, hx, _ => by simp at hx
  | [a], _, x, hx, d => by
    simp only [List.mem_singleton] at hx
    simp [hx]
  | a :: b :: t, hs, x, hx, d => by
    rw [List.getLastD_cons]
    rcases List.mem_cons.1 hx with hxa | hx
    · rw [hxa]
      have hb : b ≤ (b :: t).getLastD a :=
        le_getLastD_of_sorted hs.tail (List.mem_cons_self b t) a
      exact le_trans (List.rel_of_sorted_cons hs b (List.mem_cons_self b t)) hb
    · exact le_getLastD_of_sorted hs.tail hx a

lemma strictlyInside_bounds {t0 : ℚ} {rest : List ℚ}
    (hs : (t0 :: rest).Sorted (· ≤ ·)) {v : ℚ}
    (h : strictlyInside (t0 :: rest) v = true) :
    t0 < v ∧ v < (t0 :: rest).getLastD t0 := by
  simp only [strictlyInside, List.any_eq_true, Bool.and_eq_true,
    decide_eq_true_eq] at h
  obtain ⟨p, hp, h1, h2⟩ := h
  obtain ⟨a, b⟩ := p
  have hmem := List.of_mem_zip hp
  constructor
  · exact lt_of_le_of_lt (sorted_head_le hs hmem.1) h1
  · exact lt_of_lt_of_le h2
      (le_getLastD_of_sorted hs (List.mem_of_mem_tail hmem.2) t0)

lemma strictlyInside_false_of_le {ts : List ℚ} {v : ℚ}
    (h : ∀ x ∈ ts, v ≤ x) : strictlyInside ts v = false := by
  simp only [strictlyInside, List.any_eq_false, Bool.and_eq_true,
    decide_eq_true_eq, not_and]
  intro p hp h1
  obtain ⟨a, b⟩ := p
  exact absurd h1 (not_lt.2 (h a (List.of_mem_zip hp).1))

lemma strictlyInside_false_of_ge {ts : List ℚ} {v : ℚ}
    (h : ∀ x ∈ ts, x ≤ v) : strictlyInside ts v = false := by
  simp only [strictlyInside, List.any_eq_false, Bool.and_eq_true,
    decide_eq_true_eq, not_and]
  intro p hp h1
  obtain ⟨a, b⟩ := p
  intro h2
  exact absurd (h b (List.mem_of_mem_tail (List.of_mem_zip hp).2)) (not_le.2 h2)

lemma map_fst_zip_sublist :
    ∀ (l1 l2 : List ℚ), ((l1.zip l2).map Prod.fst).Sublist l1
  | [], _ => by simp
  | _ :: _, [] => by simp
  | a :: l1, b :: l2 => by
    rw [List.zip_cons_cons, List.map_cons]
    exact (map_fst_zip_sublist l1 l2).cons₂ a

lemma keptList_ts_sorted {sig : SigData} (hs : sig.ts.Sorted (· ≤ ·))
    (start stop : Option ℚ) :
    ((keptList sig start stop).map Prod.fst).Sorted (· ≤ ·) := by
  have h1 : (keptList sig start stop).Sublist (sig.ts.zip sig.samples) :=
    List.filter_sublist _
  exact List.Pairwise.sublist ((h1.map Prod.fst).trans
    (map_fst_zip_sublist sig.ts sig.samples)) hs

lemma sorted_of_length_le_one {l : List ℚ} (h : l.length ≤ 1) :
    l.Sorted (· ≤ ·) := by
  match l, h with
  | [], _ => exact List.sorted_nil
  | [a], _ => exact List.sorted_singleton a

lemma length_startSynthList_le (sig : SigData) (start stop : Option ℚ)
    (ie : Bool) : (startSynthList sig start stop ie).length ≤ 1 := by
  cases start with
  | none => simp [startSynthList]
  | some s =>
    simp only [startSynthList]
    split_ifs <;> simp

lemma length_stopSynthList_le (sig : SigData) (start stop : Option ℚ)
    (ie : Bool) : (stopSynthList sig start stop ie).length ≤ 1 := by
  cases stop with
  | none => simp [stopSynthList]
  | some s =>
    simp only [stopSynthList]
    split_ifs <;> simp

lemma signalCut_sorted {sig : SigData} (hs : sig.ts.Sorted (· ≤ ·))
    (start stop : Option ℚ) (ie : Bool) :
    ((Signal.cut sig start stop ie).ts).Sorted (· ≤ ·) := by
  have hA : ((startSynthList sig start stop ie).map Prod.fst).Sorted (· ≤ ·) :=
    sorted_of_length_le_one
      (by rw [List.length_map]; exact length_startSynthList_le sig start stop ie)
  have hC : ((stopSynthList sig start stop ie).map Prod.fst).Sorted (· ≤ ·) :=
    sorted_of_length_le_one
      (by rw [List.length_map]; exact length_stopSynthList_le sig start stop ie)
  have hK := keptList_ts_sorted hs start stop
  have crossKC : ∀ a ∈ (keptList sig start stop).map Prod.fst,
      ∀ b ∈ (stopSynthList sig start stop ie).map Prod.fst, a ≤ b := by
    intro a ha b hb
    obtain ⟨p, hp, hpa⟩ := List.mem_map.1 ha
    obtain ⟨q, hq, hqb⟩ := List.mem_map.1 hb
    obtain ⟨s, hseq, hqs, _, _, _⟩ := mem_stopSynthList hq
    have hk := (mem_keptList hp).2
    rw [hseq] at hk
    simp only [upperOk, decide_eq_true_eq] at hk
    rw [← hpa, ← hqb, hqs]
    exact hk
  have crossA : ∀ a ∈ (startSynthList sig start stop ie).map Prod.fst,
      ∀ b ∈ (keptList sig start stop).map Prod.fst ++
        (stopSynthList sig start stop ie).map Prod.fst, a ≤ b := by
    intro a ha b hb
    obtain ⟨p, hp, hpa⟩ := List.mem_map.1 ha
    obtain ⟨s, hseq, hps, _, _, hup⟩ := mem_startSynthList hp
    rcases List.mem_append.1 hb with hb | hb
    · obtain ⟨q, hq, hqb⟩ := List.mem_map.1 hb
      have hk := (mem_keptList hq).1
      rw [hseq] at hk
      simp only [lowerOk, decide_eq_true_eq] at hk
      rw [← hpa, ← hqb, hps]
      exact hk
    · obtain ⟨q, hq, hqb⟩ := List.mem_map.1 hb
      obtain ⟨s2, hseq2, hqs2, _, _, _⟩ := mem_stopSynthList hq
      rw [hseq2] at hup
      simp only [upperOk, decide_eq_true_eq] at hup
      rw [← hpa, ← hqb, hps, hqs2]
      exact hup
  have crossAK : ∀ a ∈ (startSynthList sig start stop ie).map Prod.fst,
      ∀ b ∈ (keptList sig start stop).map Prod.fst, a ≤ b :=
    fun a ha b hb => crossA a ha b (List.mem_append.2 (Or.inl hb))
  have crossC : ∀ a ∈ (startSynthList sig start stop ie).map Prod.fst ++
      (keptList sig start stop).map Prod.fst,
      ∀ b ∈ (stopSynthList sig start stop ie).map Prod.fst, a ≤ b := by
    intro a ha b hb
    rcases List.mem_append.1 ha with ha | ha
    · exact crossA a ha b (List.mem_append.2 (Or.inr hb))
    · exact crossKC a ha b hb
  show ((cutPairs sig start stop ie).map Prod.fst).Sorted (· ≤ ·)
  simp only [cutPairs, List.map_append]
  exact List.pairwise_append.2
    ⟨List.pairwise_append.2 ⟨hA, hK, crossAK⟩, hC, crossC⟩

lemma searchsortedLeft_zero {l : List ℚ} {v : ℚ}
    (h : searchsortedLeft l v = 0) : ∀ x ∈ l, v ≤ x := by
  intro x hx
  have := List.countP_eq_zero.1 h x hx
  simpa [decide_eq_true_eq, not_lt] using this

lemma searchsortedLeft_eq_zero {l : List ℚ} {v : ℚ}
    (h : ∀ x ∈ l, v ≤ x) : searchsortedLeft l v = 0 :=
  List.countP_eq_zero.2 fun x hx => by
    simpa [decide_eq_true_eq, not_lt] using h x hx

lemma searchsortedRight_length {l : List ℚ} {v : ℚ}
    (h : searchsortedRight l v = l.length) : ∀ x ∈ l, x ≤ v := by
  intro x hx
  have := List.countP_eq_length.1 h x hx
  simpa [decide_eq_true_eq] using this

lemma searchsortedRight_eq_length {l : List ℚ} {v : ℚ}
    (h : ∀ x ∈ l, x ≤ v) : searchsortedRight l v = l.length :=
  List.countP_eq_length.2 fun x hx => by
    simpa [decide_eq_true_eq] using h x hx

lemma cutFragmentBounds_ne_nil {m : List ℚ} {start stop : Option ℚ}
    {v : Option ℚ × Option ℚ × Bool}
    (h : cutFragmentBounds m start stop = some v) : m ≠ [] := by
  intro h0
  subst h0
  simp [cutFragmentBounds] at h

lemma cutFragmentBounds_spec {m : List ℚ} {start stop : Option ℚ}
    {fs fp : Option ℚ} {nc : Bool}
    (h : cutFragmentBounds m start stop = some (fs, fp, nc)) :
    (∀ x, lowerOk fs x = true → lowerOk start x = true) ∧
    (∀ x, upperOk fp x = true → upperOk stop x = true) ∧
    (nc = false → ∀ x ∈ m, lowerOk start x = true ∧ upperOk stop x = true) := by
  match m with
  | [] => simp [cutFragmentBounds] at h
  | t0 :: rest =>
    cases start with
    | none =>
      cases stop with
      | none =>
        simp only [cutFragmentBounds, Option.some.injEq, Prod.mk.injEq] at h
        obtain ⟨h1, h2, h3⟩ := h
        subst h1; subst h2; subst h3
        exact ⟨fun x hx => hx, fun x hx => hx, fun _ x _ => ⟨rfl, rfl⟩⟩
      | some sp =>
        simp only [cutFragmentBounds] at h
        split_ifs at h with hif
        obtain ⟨rfl, rfl, rfl⟩ := h
        refine ⟨fun x hx => hx, ?_, ?_⟩
        · intro x hx
          simp only [upperOk, decide_eq_true_eq] at hx ⊢
          exact le_trans hx (min_le_left _ _)
        · intro hnc x hxm
          simp only [decide_eq_false_iff_not, not_not] at hnc
          refine ⟨rfl, ?_⟩
          simp only [upperOk, decide_eq_true_eq]
          exact le_trans (searchsortedRight_length hnc x hxm) (min_le_left _ _)
    | some st =>
      cases stop with
      | none =>
        simp only [cutFragmentBounds] at h
        split_ifs at h with hif
        obtain ⟨rfl, rfl, rfl⟩ := h
        refine ⟨?_, fun x hx => hx, ?_⟩
        · intro x hx
          simp only [lowerOk, decide_eq_true_eq] at hx ⊢
          exact le_trans (le_max_left _ _) hx
        · intro hnc x hxm
          simp only [decide_eq_false_iff_not, not_not] at hnc
          refine ⟨?_, rfl⟩
          simp only [lowerOk, decide_eq_true_eq]
          exact le_trans (le_max_left _ _) (searchsortedLeft_zero hnc x hxm)
      | some sp =>
        simp only [cutFragmentBounds] at h
        split_ifs at h with hif1 hif2
        obtain ⟨rfl, rfl, rfl⟩ := h
        refine ⟨?_, ?_, ?_⟩
        · intro x hx
          simp only [lowerOk, decide_eq_true_eq] at hx ⊢
          exact le_trans (le_max_left _ _) hx
        · intro x hx
          simp only [upperOk, decide_eq_true_eq] at hx ⊢
          exact le_trans hx (min_le_left _ _)
        · intro hnc x hxm
          simp only [decide_eq_false_iff_not, not_not] at hnc
          constructor
          · simp only [lowerOk, decide_eq_true_eq]
            exact le_trans (le_max_left _ _) (searchsortedLeft_zero hnc.1 x hxm)
          · simp only [upperOk, decide_eq_true_eq]
            exact le_trans (searchsortedRight_length hnc.2 x hxm)
              (min_le_left _ _)

lemma signalCut_ts_nil {sig : SigData} {start stop : Option ℚ} {ie : Bool}
    (h : (Signal.cut sig start stop ie).ts = []) :
    Signal.cut sig start stop ie = ⟨[], []⟩ := by
  have h2 : cutPairs sig start stop ie = [] := by
    simpa [Signal.cut, List.map_eq_nil_iff] using h
  simp [Signal.cut, h2]

lemma cutGroupCore_mem_bounds {sig : SigData} {fstart fstop : Option ℚ}
    {ie : Bool} {t : ℚ} (h : t ∈ (cutGroupCore sig fstart fstop ie).ts) :
    lowerOk fstart t = true ∧ upperOk fstop t = true := by
  rcases hM : (Signal.cut ⟨sig.ts, sig.ts⟩ fstart fstop ie).ts
    with _ | ⟨m0, mrest⟩
  · simp only [cutGroupCore, hM] at h
    simp at h
  · simp only [cutGroupCore, hM] at h
    have hb := signalCut_mem_bounds h
    simp only [lowerOk, upperOk, decide_eq_true_eq] at hb
    have hm0 : m0 ∈ (Signal.cut ⟨sig.ts, sig.ts⟩ fstart fstop ie).ts := by
      rw [hM]; exact List.mem_cons_self m0 mrest
    have hml : (m0 :: mrest).getLastD m0 ∈
        (Signal.cut ⟨sig.ts, sig.ts⟩ fstart fstop ie).ts := by
      rw [hM]; exact getLastD_mem (m0 :: mrest) (by simp) m0
    have h1 := signalCut_mem_bounds hm0
    have h2 := signalCut_mem_bounds hml
    exact ⟨lowerOk_trans h1.1 hb.1, upperOk_trans h2.2 hb.2⟩

lemma cutGroup_mem_bounds {sig : SigData} {start stop : Option ℚ} {ie : Bool}
    {t : ℚ} (h : t ∈ (MDF.cutGroup sig start stop ie).ts) :
    lowerOk start t = true ∧ upperOk stop t = true := by
  rcases hfb : cutFragmentBounds sig.ts start stop with _ | ⟨fs, fp, nc⟩
  · simp only [MDF.cutGroup, hfb] at h
    simp at h
  · obtain ⟨hfs, hfp, hnc⟩ := cutFragmentBounds_spec hfb
    rw [MDF.cutGroup, hfb] at h
    cases nc with
    | true =>
      have h2 : t ∈ (cutGroupCore sig fs fp ie).ts := h
      have := cutGroupCore_mem_bounds h2
      exact ⟨hfs t this.1, hfp t this.2⟩
    | false =>
      have h2 : t ∈ sig.ts := h
      exact hnc rfl t h2

lemma cutGroup_sorted {sig : SigData} (hs : sig.ts.Sorted (· ≤ ·))
    (start stop : Option ℚ) (ie : Bool) :
    ((MDF.cutGroup sig start stop ie).ts).Sorted (· ≤ ·) := by
  rcases hfb : cutFragmentBounds sig.ts start stop with _ | ⟨fs, fp, nc⟩
  · simp only [MDF.cutGroup, hfb]
    exact List.sorted_nil
  · cases nc with
    | true =>
      simp only [MDF.cutGroup, hfb, if_true]
      rcases hM : (Signal.cut ⟨sig.ts, sig.ts⟩ fs fp ie).ts
        with _ | ⟨m0, mrest⟩
      · simp only [cutGroupCore, hM]
        exact List.sorted_nil
      · simp only [cutGroupCore, hM]
        exact signalCut_sorted hs _ _ ie
    | false =>
      simp only [MDF.cutGroup, hfb, if_false]
      exact hs

lemma cutGroup_nil_shape {sig : SigData} {start stop : Option ℚ} {ie : Bool}
    (h : (MDF.cutGroup sig start stop ie).ts = []) :
    MDF.cutGroup sig start stop ie = ⟨[], []⟩ := by
  rcases hfb : cutFragmentBounds sig.ts start stop with _ | ⟨fs, fp, nc⟩
  · simp only [MDF.cutGroup, hfb]
  · cases nc with
    | true =>
      simp only [MDF.cutGroup, hfb, if_true] at h ⊢
      rcases hM : (Signal.cut ⟨sig.ts, sig.ts⟩ fs fp ie).ts
        with _ | ⟨m0, mrest⟩
      · simp only [cutGroupCore, hM]
      · simp only [cutGroupCore, hM] at h ⊢
        exact signalCut_ts_nil h
    | false =>
      simp only [MDF.cutGroup, hfb, if_false] at h ⊢
      exact absurd h (cutFragmentBounds_ne_nil hfb)

lemma signalCut_startSynth_ts {sig : SigData} {stop : Option ℚ} {s : ℚ}
    (hin : strictlyInside sig.ts s = true) (hup : upperOk stop s = true) :
    (Signal.cut sig (some s) stop true).ts =
      s :: ((keptList sig (some s) stop).map Prod.fst ++
        (stopSynthList sig (some s) stop true).map Prod.fst) := by
  simp only [Signal.cut, cutPairs, startSynthList, hin, hup, Bool.and_true,
    Bool.true_and, if_pos, List.map_append, List.append_assoc]
  rfl

lemma signalCut_stopSynth_mem {sig : SigData} {start : Option ℚ} {s : ℚ}
    (hin : strictlyInside sig.ts s = true) (hlo : lowerOk start s = true) :
    s ∈ (Signal.cut sig start (some s) true).ts := by
  simp only [Signal.cut, cutPairs, List.map_append, List.mem_append]
  right
  simp [stopSynthList, hin, hlo]

lemma signalCut_ne_nil_of_startSynth {sig : SigData} {stop : Option ℚ} {s : ℚ}
    (hin : strictlyInside sig.ts s = true) (hup : upperOk stop s = true) :
    (Signal.cut sig (some s) stop true).ts ≠ [] := by
  rw [signalCut_startSynth_ts hin hup]
  simp

/-- Start-bound synthesis at `MDF.cutGroup` level: when `include_ends` holds
and the start bound falls strictly inside a sampling interval (and does not
exceed the stop bound), the interpolated boundary timestamp is present in
the output. -/
lemma cutGroup_start_synth {sig : SigData} {stop : Option ℚ} {s : ℚ}
    (hs : sig.ts.Sorted (· ≤ ·)) (hin : strictlyInside sig.ts s = true)
    (hup : upperOk stop s = true) :
    s ∈ (MDF.cutGroup sig (some s) stop true).ts := by
  rcases hts : sig.ts with _ | ⟨t0, rest⟩
  · rw [hts] at hin
    simp [strictlyInside] at hin
  · rw [hts] at hs hin
    obtain ⟨hlo1, hhi1⟩ := strictlyInside_bounds hs hin
    -- the fragment bound decision takes the needs-cutting path with
    -- fragment_start = s
    have hmax : max s t0 = s := max_eq_left (le_of_lt hlo1)
    have hssl : searchsortedLeft (t0 :: rest) s ≠ 0 := by
      intro h0
      exact absurd hlo1 (not_lt.2 (searchsortedLeft_zero h0 t0
        (List.mem_cons_self t0 rest)))
    -- compute cutFragmentBounds in both stop cases
    have hfb : ∃ fp, cutFragmentBounds (t0 :: rest) (some s) stop =
        some (some s, fp, true) ∧ upperOk fp s = true := by
      cases stop with
      | none =>
        refine ⟨none, ?_, rfl⟩
        simp only [cutFragmentBounds]
        rw [if_neg (not_lt.2 (le_of_lt hhi1))]
        simp [hmax, hssl]
      | some sp =>
        simp only [upperOk, decide_eq_true_eq] at hup
        refine ⟨some (min sp ((t0 :: rest).getLastD t0)), ?_, ?_⟩
        · simp only [cutFragmentBounds]
          rw [if_neg (not_lt.2 (le_of_lt (lt_of_lt_of_le hlo1 hup)))]
          rw [if_neg (not_lt.2 (le_of_lt hhi1))]
          rw [hmax]
          have hdec : decide (¬(searchsortedLeft (t0 :: rest) s = 0 ∧
              searchsortedRight (t0 :: rest)
                (min sp ((t0 :: rest).getLastD t0)) =
                (t0 :: rest).length)) = true := by
            simp only [decide_eq_true_eq]
            intro hcon
            exact hssl hcon.1
          rw [hdec]
        · simp only [upperOk, decide_eq_true_eq, le_min_iff]
          exact ⟨hup, le_of_lt hhi1⟩
    obtain ⟨fp, hfb, hfps⟩ := hfb
    have hin2 : strictlyInside sig.ts s = true := by rw [hts]; exact hin
    have hsorted2 : (SigData.mk sig.ts sig.ts).ts.Sorted (· ≤ ·) := by
      rw [hts]; exact hs
    have hinM : strictlyInside (SigData.mk sig.ts sig.ts).ts s = true := hin2
    -- the cut master starts with the synthesized bound
    have hM : (Signal.cut ⟨sig.ts, sig.ts⟩ (some s) fp true).ts =
        s :: ((keptList ⟨sig.ts, sig.ts⟩ (some s) fp).map Prod.fst ++
          (stopSynthList ⟨sig.ts, sig.ts⟩ (some s) fp true).map Prod.fst) :=
      signalCut_startSynth_ts hinM hfps
    rw [MDF.cutGroup, hts, hfb]
    have hcore : s ∈ (cutGroupCore sig (some s) fp true).ts := by
      rw [cutGroupCore]
      rw [hM]
      -- the last element of the new master is at least s
      set L := ((keptList ⟨sig.ts, sig.ts⟩ (some s) fp).map Prod.fst ++
        (stopSynthList ⟨sig.ts, sig.ts⟩ (some s) fp true).map Prod.fst) with hL
      have hlast_mem : (s :: L).getLastD s ∈
          (Signal.cut ⟨sig.ts, sig.ts⟩ (some s) fp true).ts := by
        rw [hM]
        exact getLastD_mem (s :: L) (by simp) s
      have hlast_ge : upperOk (some ((s :: L).getLastD s)) s = true := by
        have := (signalCut_mem_bounds hlast_mem).1
        simp only [lowerOk, decide_eq_true_eq] at this
        simp only [upperOk, decide_eq_true_eq]
        exact this
      have hfinal : s ∈ (Signal.cut sig (some s)
          (some ((s :: L).getLastD s)) true).ts := by
        rw [signalCut_startSynth_ts hin2 hlast_ge]
        exact List.mem_cons_self _ _
      exact hfinal
    exact hcore


/-- Stop-bound synthesis at `MDF.cutGroup` level: when `include_ends` holds
and the stop bound falls strictly inside a sampling interval (and is not
below the start bound), the interpolated boundary timestamp is present in
the output. -/
lemma cutGroup_stop_synth {sig : SigData} {start : Option ℚ} {s : ℚ}
    (hs : sig.ts.Sorted (· ≤ ·)) (hin : strictlyInside sig.ts s = true)
    (hlo : lowerOk start s = true) :
    s ∈ (MDF.cutGroup sig start (some s) true).ts := by
  rcases hts : sig.ts with _ | ⟨t0, rest⟩
  · rw [hts] at hin
    simp [strictlyInside] at hin
  · rw [hts] at hs hin
    obtain ⟨hlo1, hhi1⟩ := strictlyInside_bounds hs hin
    have hmin : min s ((t0 :: rest).getLastD t0) = s :=
      min_eq_left (le_of_lt hhi1)
    have hssr : searchsortedRight (t0 :: rest) s ≠ (t0 :: rest).length := by
      intro h0
      have := searchsortedRight_length h0 ((t0 :: rest).getLastD t0)
        (getLastD_mem _ (by simp) t0)
      exact absurd hhi1 (not_lt.2 this)
    have hfb : ∃ fs, cutFragmentBounds (t0 :: rest) start (some s) =
        some (fs, some s, true) ∧ lowerOk fs s = true := by
      cases start with
      | none =>
        refine ⟨none, ?_, rfl⟩
        simp only [cutFragmentBounds]
        rw [if_neg (not_lt.2 (le_of_lt hlo1))]
        rw [hmin]
        have hdec : decide (searchsortedRight (t0 :: rest) s ≠
            (t0 :: rest).length) = true := by
          simp only [decide_eq_true_eq]
          exact hssr
        rw [hdec]
      | some st =>
        simp only [lowerOk, decide_eq_true_eq] at hlo
        refine ⟨some (max st t0), ?_, ?_⟩
        · simp only [cutFragmentBounds]
          rw [if_neg (not_lt.2 (le_of_lt hlo1))]
          rw [if_neg (not_lt.2 (le_trans hlo (le_of_lt hhi1)))]
          rw [hmin]
          have hdec : decide (¬(searchsortedLeft (t0 :: rest) (max st t0) = 0 ∧
              searchsortedRight (t0 :: rest) s = (t0 :: rest).length)) =
              true := by
            simp only [decide_eq_true_eq]
            intro hcon
            exact hssr hcon.2
          rw [hdec]
        · simp only [lowerOk, decide_eq_true_eq, max_le_iff]
          exact ⟨hlo, le_of_lt hlo1⟩
    obtain ⟨fs, hfb, hfss⟩ := hfb
    have hin2 : strictlyInside sig.ts s = true := by rw [hts]; exact hin
    have hinM : strictlyInside (SigData.mk sig.ts sig.ts).ts s = true := hin2
    have hmem : s ∈ (Signal.cut ⟨sig.ts, sig.ts⟩ fs (some s) true).ts :=
      signalCut_stopSynth_mem hinM hfss
    rcases hM : (Signal.cut ⟨sig.ts, sig.ts⟩ fs (some s) true).ts
      with _ | ⟨m0, mrest⟩
    · rw [hM] at hmem
      simp at hmem
    · have hsortM :
          ((Signal.cut ⟨sig.ts, sig.ts⟩ fs (some s) true).ts).Sorted (· ≤ ·) := by
        apply signalCut_sorted
        show sig.ts.Sorted (· ≤ ·)
        rw [hts]
        exact hs
      have hlastmem : (m0 :: mrest).getLastD m0 ∈
          (Signal.cut ⟨sig.ts, sig.ts⟩ fs (some s) true).ts := by
        rw [hM]
        exact getLastD_mem _ (by simp) m0
      have hlast_le : (m0 :: mrest).getLastD m0 ≤ s := by
        have := (signalCut_mem_bounds hlastmem).2
        simpa [upperOk, decide_eq_true_eq] using this
      have hs_le_last : s ≤ (m0 :: mrest).getLastD m0 := by
        rw [hM] at hmem hsortM
        exact le_getLastD_of_sorted hsortM hmem m0
      have hlast_eq : (m0 :: mrest).getLastD m0 = s :=
        le_antisymm hlast_le hs_le_last
      have hm0_le : lowerOk (some m0) s = true := by
        have hm0mem : m0 ∈ (Signal.cut ⟨sig.ts, sig.ts⟩ fs (some s) true).ts := by
          rw [hM]
          exact List.mem_cons_self _ _
        have := (signalCut_mem_bounds hm0mem).2
        simp only [upperOk, decide_eq_true_eq] at this
        simp only [lowerOk, decide_eq_true_eq]
        exact this
      rw [MDF.cutGroup, hts, hfb]
      have hcore : s ∈ (cutGroupCore sig fs (some s) true).ts := by
        rw [cutGroupCore, hM]
        have hfinal : s ∈ (Signal.cut sig (some m0)
            (some ((m0 :: mrest).getLastD m0)) true).ts := by
          rw [hlast_eq]
          exact signalCut_stopSynth_mem hin2 hm0_le
        exact hfinal
      exact hcore

/-- When every sample of the group already lies inside the cut interval,
`MDF.cut` takes the `needs_cutting = False` paths and passes the group
through unchanged. -/
lemma cutGroup_passthrough {sig : SigData} {start stop : Option ℚ} {ie : Bool}
    (hs : sig.ts.Sorted (· ≤ ·)) (hne : sig.ts ≠ [])
    (hmem : ∀ t ∈ sig.ts, lowerOk start t = true ∧ upperOk stop t = true) :
    MDF.cutGroup sig start stop ie = sig := by
  rcases hts : sig.ts with _ | ⟨t0, rest⟩
  · exact absurd hts hne
  · rw [hts] at hs hmem
    have hmem0 := hmem t0 (List.mem_cons_self t0 rest)
    have hmemL := hmem ((t0 :: rest).getLastD t0) (getLastD_mem _ (by simp) t0)
    cases start with
    | none =>
      cases stop with
      | none =>
        rw [MDF.cutGroup, hts]
        rfl
      | some sp =>
        have h0 : ¬ t0 > sp := not_lt.2 (by simpa [upperOk] using hmem0.2)
        have hlen : searchsortedRight (t0 :: rest)
            (min sp ((t0 :: rest).getLastD t0)) = (t0 :: rest).length := by
          apply searchsortedRight_eq_length
          intro x hx
          refine le_min ?_ (le_getLastD_of_sorted hs hx t0)
          have := (hmem x hx).2
          simpa [upperOk] using this
        have hfb : cutFragmentBounds (t0 :: rest) none (some sp) =
            some (none, some (min sp ((t0 :: rest).getLastD t0)), false) := by
          simp only [cutFragmentBounds]
          rw [if_neg h0]
          have hdec : decide (searchsortedRight (t0 :: rest)
              (min sp ((t0 :: rest).getLastD t0)) ≠ (t0 :: rest).length) =
              false := by
            simp only [decide_eq_false_iff_not, not_not]
            exact hlen
          rw [hdec]
        rw [MDF.cutGroup, hts, hfb]
        rfl
    | some st =>
      cases stop with
      | none =>
        have hL : ¬ (t0 :: rest).getLastD t0 < st :=
          not_lt.2 (by simpa [lowerOk] using hmemL.1)
        have hzero : searchsortedLeft (t0 :: rest) (max st t0) = 0 := by
          apply searchsortedLeft_eq_zero
          intro x hx
          refine max_le ?_ (sorted_head_le hs hx)
          have := (hmem x hx).1
          simpa [lowerOk] using this
        have hfb : cutFragmentBounds (t0 :: rest) (some st) none =
            some (some (max st t0), none, false) := by
          simp only [cutFragmentBounds]
          rw [if_neg hL]
          have hdec : decide (searchsortedLeft (t0 :: rest) (max st t0) ≠ 0) =
              false := by
            simp only [decide_eq_false_iff_not, not_not]
            exact hzero
          rw [hdec]
        rw [MDF.cutGroup, hts, hfb]
        rfl
      | some sp =>
        have h0 : ¬ t0 > sp := not_lt.2 (by simpa [upperOk] using hmem0.2)
        have hL : ¬ (t0 :: rest).getLastD t0 < st :=
          not_lt.2 (by simpa [lowerOk] using hmemL.1)
        have hzero : searchsortedLeft (t0 :: rest) (max st t0) = 0 := by
          apply searchsortedLeft_eq_zero
          intro x hx
          refine max_le ?_ (sorted_head_le hs hx)
          have := (hmem x hx).1
          simpa [lowerOk] using this
        have hlen : searchsortedRight (t0 :: rest)
            (min sp ((t0 :: rest).getLastD t0)) = (t0 :: rest).length := by
          apply searchsortedRight_eq_length
          intro x hx
          refine le_min ?_ (le_getLastD_of_sorted hs hx t0)
          have := (hmem x hx).2
          simpa [upperOk] using this
        have hfb : cutFragmentBounds (t0 :: rest) (some st) (some sp) =
            some (some (max st t0),
              some (min sp ((t0 :: rest).getLastD t0)), false) := by
          simp only [cutFragmentBounds]
          rw [if_neg h0, if_neg hL]
          have hdec : decide (¬(searchsortedLeft (t0 :: rest) (max st t0) = 0 ∧
              searchsortedRight (t0 :: rest)
                (min sp ((t0 :: rest).getLastD t0)) =
                (t0 :: rest).length)) = false := by
            simp only [decide_eq_false_iff_not, not_not]
            exact ⟨hzero, hlen⟩
          rw [hdec]
        rw [MDF.cutGroup, hts, hfb]
        rfl

/-- Cutting twice with the same bounds is the identity on the first cut
output. -/
lemma cutGroup_idem {sig : SigData} (start stop : Option ℚ) (ie : Bool)
    (hs : sig.ts.Sorted (· ≤ ·)) :
    MDF.cutGroup (MDF.cutGroup sig start stop ie) start stop ie =
      MDF.cutGroup sig start stop ie := by
  have hsorted := cutGroup_sorted hs start stop ie
  rcases ho : (MDF.cutGroup sig start stop ie).ts with _ | ⟨u0, urest⟩
  · have h1 : MDF.cutGroup sig start stop ie = ⟨[], []⟩ := cutGroup_nil_shape ho
    rw [h1]
    rfl
  · exact cutGroup_passthrough hsorted (by rw [ho]; simp)
      fun t ht => cutGroup_mem_bounds ht

lemma signalCut_ts_eq_nil_parts {sig : SigData} {start stop : Option ℚ}
    {ie : Bool} (hk : keptList sig start stop = [])
    (ha : startSynthList sig start stop ie = [])
    (hc : stopSynthList sig start stop ie = []) :
    (Signal.cut sig start stop ie).ts = [] := by
  simp [Signal.cut, cutPairs, hk, ha, hc]

/-- When the cut interval holds no sample of the group and no boundary
sample is synthesized, `MDF.cut` appends a zero-cycle group: empty samples,
timestamps and invalidation bits, and no exception is raised (the model is a
total function). -/
lemma cutGroup_empty_of_no_sample {sig : SigData} {start stop : Option ℚ}
    {ie : Bool} (hs : sig.ts.Sorted (· ≤ ·))
    (hnone : ∀ t ∈ sig.ts, ¬(lowerOk start t = true ∧ upperOk stop t = true))
    (hsynth : ie = false ∨
      ((∀ a, start = some a → strictlyInside sig.ts a = false) ∧
       (∀ b, stop = some b → strictlyInside sig.ts b = false))) :
    MDF.cutGroup sig start stop ie = ⟨[], []⟩ := by
  rcases hts : sig.ts with _ | ⟨t0, rest⟩
  · rw [MDF.cutGroup, hts]
    rfl
  · have hnone2 : ∀ t ∈ t0 :: rest,
        ¬(lowerOk start t = true ∧ upperOk stop t = true) := by
      rw [← hts]; exact hnone
    have hs2 : (t0 :: rest).Sorted (· ≤ ·) := by rw [← hts]; exact hs
    have hmem0 : t0 ∈ t0 :: rest := List.mem_cons_self t0 rest
    have hmemL : (t0 :: rest).getLastD t0 ∈ t0 :: rest :=
      getLastD_mem _ (by simp) t0
    cases start with
    | none =>
      cases stop with
      | none => exact absurd ⟨rfl, rfl⟩ (hnone2 t0 hmem0)
      | some sp =>
        have h0 : t0 > sp := by
          by_contra hcon
          exact hnone2 t0 hmem0 ⟨rfl, by simpa [upperOk] using not_lt.1 hcon⟩
        rw [MDF.cutGroup, hts]
        simp only [cutFragmentBounds]
        rw [if_pos h0]
    | some st =>
      cases stop with
      | none =>
        have hL : (t0 :: rest).getLastD t0 < st := by
          by_contra hcon
          exact hnone2 _ hmemL ⟨by simpa [lowerOk] using not_lt.1 hcon, rfl⟩
        rw [MDF.cutGroup, hts]
        simp only [cutFragmentBounds]
        rw [if_pos hL]
      | some sp =>
        by_cases h0 : t0 > sp
        · rw [MDF.cutGroup, hts]
          simp only [cutFragmentBounds]
          rw [if_pos h0]
        by_cases hL : (t0 :: rest).getLastD t0 < st
        · rw [MDF.cutGroup, hts]
          simp only [cutFragmentBounds]
          rw [if_neg h0, if_pos hL]
        -- the needs-cutting branch is taken and the cut master is empty
        have hnc : decide (¬(searchsortedLeft (t0 :: rest) (max st t0) = 0 ∧
            searchsortedRight (t0 :: rest)
              (min sp ((t0 :: rest).getLastD t0)) =
              (t0 :: rest).length)) = true := by
          simp only [decide_eq_true_eq]
          intro hcon
          have h1 := searchsortedLeft_zero hcon.1 t0 hmem0
          have h2 := searchsortedRight_length hcon.2 t0 hmem0
          refine hnone2 t0 hmem0 ⟨?_, ?_⟩
          · simp only [lowerOk, decide_eq_true_eq]
            exact le_trans (le_max_left _ _) h1
          · simp only [upperOk, decide_eq_true_eq]
            exact le_trans h2 (min_le_left _ _)
        have hfb : cutFragmentBounds (t0 :: rest) (some st) (some sp) =
            some (some (max st t0),
              some (min sp ((t0 :: rest).getLastD t0)), true) := by
          simp only [cutFragmentBounds]
          rw [if_neg h0, if_neg hL, hnc]
        have hkept : keptList ⟨sig.ts, sig.ts⟩ (some (max st t0))
            (some (min sp ((t0 :: rest).getLastD t0))) = [] := by
          rw [keptList, List.filter_eq_nil_iff]
          intro p hp
          have hp1 : p.1 ∈ sig.ts := by
            obtain ⟨a, b⟩ := p
            exact (List.of_mem_zip hp).1
          rw [hts] at hp1
          simp only [Bool.and_eq_true, lowerOk, upperOk, decide_eq_true_eq,
            not_and]
          intro hlo hhi
          refine hnone2 p.1 hp1 ⟨?_, ?_⟩
          · simp only [lowerOk, decide_eq_true_eq]
            exact le_trans (le_max_left _ _) hlo
          · simp only [upperOk, decide_eq_true_eq]
            exact le_trans hhi (min_le_left _ _)
        have hstart : startSynthList ⟨sig.ts, sig.ts⟩ (some (max st t0))
            (some (min sp ((t0 :: rest).getLastD t0))) ie = [] := by
          rcases hsynth with hie | hpair
          · simp [startSynthList, hie]
          · have hin : strictlyInside sig.ts (max st t0) = false := by
              rcases max_choice st t0 with hmx | hmx
              · rw [hmx]
                exact hpair.1 st rfl
              · rw [hmx, hts]
                exact strictlyInside_false_of_le fun x hx =>
                  sorted_head_le hs2 hx
            simp [startSynthList, hin]
        have hstop : stopSynthList ⟨sig.ts, sig.ts⟩ (some (max st t0))
            (some (min sp ((t0 :: rest).getLastD t0))) ie = [] := by
          rcases hsynth with hie | hpair
          · simp [stopSynthList, hie]
          · have hin : strictlyInside sig.ts
                (min sp ((t0 :: rest).getLastD t0)) = false := by
              rcases min_choice sp ((t0 :: rest).getLastD t0) with hmn | hmn
              · rw [hmn]
                exact hpair.2 sp rfl
              · rw [hmn, hts]
                exact strictlyInside_false_of_ge fun x hx =>
                  le_getLastD_of_sorted hs2 hx t0
            simp only [List.getLastD_eq_getLast?] at hin
            simp [stopSynthList, hin]
        have hmaster : (Signal.cut ⟨sig.ts, sig.ts⟩ (some (max st t0))
            (some (min sp ((t0 :: rest).getLastD t0))) ie).ts = [] :=
          signalCut_ts_eq_nil_parts hkept hstart hstop
        have hcore : cutGroupCore sig (some (max st t0))
            (some (min sp ((t0 :: rest).getLastD t0))) ie = ⟨[], []⟩ := by
          rw [cutGroupCore, hmaster]
        rw [MDF.cutGroup, hts, hfb]
        exact hcore

/-! Claim theorems about `MDF.cut`. -/

/-- C1: every sample timestamp `t` in the result of `MDF.cut(start, stop,
whence=0, include_ends)` satisfies `start <= t <= stop` (a missing bound is
unbounded on that side); and when `include_ends` is true and the start or
stop bound falls strictly inside a sampling interval (and is compatible with
the other bound), an interpolated boundary sample at exactly that bound is
included in the output. -/
theorem C1_cut_output_within_bounds (sig : SigData) (start stop : Option ℚ)
    (ie : Bool) (hs : sig.ts.Sorted (· ≤ ·)) :
    (∀ t ∈ (MDF.cutGroup sig start stop ie).ts,
      (∀ a, start = some a → a ≤ t) ∧ (∀ b, stop = some b → t ≤ b)) ∧
    (ie = true → ∀ a, start = some a → strictlyInside sig.ts a = true →
      upperOk stop a = true → a ∈ (MDF.cutGroup sig start stop ie).ts) ∧
    (ie = true → ∀ b, stop = some b → strictlyInside sig.ts b = true →
      lowerOk start b = true → b ∈ (MDF.cutGroup sig start stop ie).ts) := by
  refine ⟨?_, ?_, ?_⟩
  · intro t ht
    have hb := cutGroup_mem_bounds ht
    constructor
    · intro a ha
      rw [ha] at hb
      simpa [lowerOk] using hb.1
    · intro b hbq
      rw [hbq] at hb
      simpa [upperOk] using hb.2
  · intro hie a ha hin hup
    subst hie
    subst ha
    exact cutGroup_start_synth hs hin hup
  · intro hie b hbq hin hlo
    subst hie
    subst hbq
    exact cutGroup_stop_synth hs hin hlo

/-- Witness for C1 at a concrete input. -/
theorem C1_cut_output_within_bounds_witness :
    (∀ t ∈ (MDF.cutGroup ⟨[0, 2, 4], [0, 2, 4]⟩ (some 1) (some 3) true).ts,
      (∀ a, (some (1 : ℚ) : Option ℚ) = some a → a ≤ t) ∧
      (∀ b, (some (3 : ℚ) : Option ℚ) = some b → t ≤ b)) ∧
    (true = true → ∀ a, (some (1 : ℚ) : Option ℚ) = some a →
      strictlyInside [0, 2, 4] a = true → upperOk (some 3) a = true →
      a ∈ (MDF.cutGroup ⟨[0, 2, 4], [0, 2, 4]⟩ (some 1) (some 3) true).ts) ∧
    (true = true → ∀ b, (some (3 : ℚ) : Option ℚ) = some b →
      strictlyInside [0, 2, 4] b = true → lowerOk (some 1) b = true →
      b ∈ (MDF.cutGroup ⟨[0, 2, 4], [0, 2, 4]⟩ (some 1) (some 3) true).ts) :=
  C1_cut_output_within_bounds ⟨[0, 2, 4], [0, 2, 4]⟩ (some 1) (some 3) true
    (by decide)

/-- C5 counterexample: under the default `include_ends=True`, a cut interval
lying strictly inside a sampling gap contains no sample of the group, yet
the output is a group with two synthesized interpolated boundary samples,
not a zero-cycle group. -/
theorem C5_counterexample :
    (∀ t ∈ (SigData.mk [0, 10] [0, 100]).ts,
        ¬(lowerOk (some 3) t = true ∧ upperOk (some 5) t = true)) ∧
    MDF.cutGroup ⟨[0, 10], [0, 100]⟩ (some 3) (some 5) true =
      ⟨[3, 5], [30, 50]⟩ ∧
    MDF.cutGroup ⟨[0, 10], [0, 100]⟩ (some 3) (some 5) true ≠
      ⟨[], []⟩ := by
  have heq : MDF.cutGroup ⟨[0, 10], [0, 100]⟩ (some 3) (some 5) true =
      ⟨[3, 5], [30, 50]⟩ := by
    norm_num [MDF.cutGroup, cutFragmentBounds, cutGroupCore, Signal.cut,
      cutPairs, startSynthList, stopSynthList, keptList, searchsortedLeft,
      searchsortedRight, strictlyInside, lowerOk, upperOk, interpAt,
      List.countP, List.countP.go]
  refine ⟨by decide, heq, ?_⟩
  rw [heq]
  decide

/-- C5 amended: for every `cut(start, stop)` call whose time interval
contains no sample of a channel group, and for which no interpolated
boundary sample is synthesized (`include_ends` off, or neither bound falls
strictly inside a sampling interval), the output still contains a
corresponding channel group with zero cycles (empty samples, timestamps and
invalidation bits), and no error is raised for that group. -/
theorem C5_empty_cut_zero_cycles (sig : SigData) (start stop : Option ℚ)
    (ie : Bool) (hs : sig.ts.Sorted (· ≤ ·))
    (hnone : ∀ t ∈ sig.ts, ¬(lowerOk start t = true ∧ upperOk stop t = true))
    (hsynth : ie = false ∨
      ((∀ a, start = some a → strictlyInside sig.ts a = false) ∧
       (∀ b, stop = some b → strictlyInside sig.ts b = false))) :
    MDF.cutGroup sig start stop ie = ⟨[], []⟩ :=
  cutGroup_empty_of_no_sample hs hnone hsynth

/-- Witness for the amended C5 at a concrete input. -/
theorem C5_empty_cut_zero_cycles_witness :
    MDF.cutGroup ⟨[0, 1], [7, 8]⟩ (some 5) (some 6) true = ⟨[], []⟩ :=
  C5_empty_cut_zero_cycles ⟨[0, 1], [7, 8]⟩ (some 5) (some 6) true
    (by decide) (by decide)
    (Or.inr ⟨by intro a ha; cases ha; decide, by intro b hb; cases hb; decide⟩)

/-- C6: applying `cut(a, b)` to the result of `cut(a, b)` is a no-op: same
sample count and same timestamp and sample values. -/
theorem C6_cut_idempotent (sig : SigData) (start stop : Option ℚ) (ie : Bool)
    (hs : sig.ts.Sorted (· ≤ ·)) :
    MDF.cutGroup (MDF.cutGroup sig start stop ie) start stop ie =
      MDF.cutGroup sig start stop ie :=
  cutGroup_idem start stop ie hs

/-- Witness for C6 at a concrete input. -/
theorem C6_cut_idempotent_witness :
    MDF.cutGroup (MDF.cutGroup ⟨[0, 2, 4], [5, 6, 7]⟩ (some 1) (some 3) true)
        (some 1) (some 3) true =
      MDF.cutGroup ⟨[0, 2, 4], [5, 6, 7]⟩ (some 1) (some 3) true :=
  C6_cut_idempotent ⟨[0, 2, 4], [5, 6, 7]⟩ (some 1) (some 3) true (by decide)

/-! Model of `MDF.concatenate` (src/asammdf/mdf.py lines 1735-2066). -/

/-- The synthesized delta of `MDF.concatenate` (src/asammdf/mdf.py lines
2018-2021): the first sampling interval of the new fragment when it has at
least two samples, otherwise 0.001 seconds. -/
def syncDelta : List ℚ → ℚ
  | t0 :: t1 :: _ => t1 - t0
  | _ => 1 / 1000

/-- One appended timestamp fragment of `MDF.concatenate(sync=False)`
(src/asammdf/mdf.py lines 2002-2028, with `offset = 0` and
`direct_timestamp_continuation=False`): when a previous last timestamp
exists and is not before the first new timestamp, the new master is rebased
to start right after it by the synthesized delta.  Returns the emitted
timestamps and the updated last timestamp. -/
def concatShift (lastTs : Option ℚ) (master : List ℚ) : List ℚ × Option ℚ :=
  match master with
  | [] => ([], lastTs)
  | t0 :: rest =>
    match lastTs with
    | none => (t0 :: rest, some ((t0 :: rest).getLastD t0))
    | some last =>
      if last ≥ t0 then
        let delta := syncDelta (t0 :: rest)
        let shifted := (t0 :: rest).map fun t => t - t0 + (last + delta)
        (shifted, some (shifted.getLastD 0))
      else (t0 :: rest, some ((t0 :: rest).getLastD t0))

/-- The fold of `concatShift` over the ordered input files. -/
def concatGo (lastTs : Option ℚ) : List (List ℚ) → List ℚ
  | [] => []
  | f :: rest =>
    (concatShift lastTs f).1 ++ concatGo (concatShift lastTs f).2 rest

/-- The timestamp stream of one channel group produced by
`MDF.concatenate(files, sync=False)`, one master-timestamp list per input
file. -/
def concatenateTimestamps (files : List (List ℚ)) : List ℚ :=
  concatGo none files

lemma syncDelta_nonneg {f : List ℚ} (hf : f.Sorted (· ≤ ·)) :
    0 ≤ syncDelta f := by
  match f with
  | [] => norm_num [syncDelta]
  | [a] => norm_num [syncDelta]
  | t0 :: t1 :: r =>
    have h01 : t0 ≤ t1 :=
      List.rel_of_sorted_cons hf t1 (List.mem_cons_self t1 r)
    simp only [syncDelta]
    linarith

lemma concatShift_spec {lastTs : Option ℚ} {f : List ℚ}
    (hf : f.Sorted (· ≤ ·)) :
    (concatShift lastTs f).1.Sorted (· ≤ ·) ∧
    (∀ L, lastTs = some L → ∀ y ∈ (concatShift lastTs f).1, L ≤ y) ∧
    (((concatShift lastTs f).2 = lastTs ∧ (concatShift lastTs f).1 = []) ∨
      (∃ M, (concatShift lastTs f).2 = some M ∧
        (∀ y ∈ (concatShift lastTs f).1, y ≤ M) ∧
        (∀ L, lastTs = some L → L ≤ M))) := by
  match f with
  | [] =>
    refine ⟨List.sorted_nil, ?_, Or.inl ⟨rfl, rfl⟩⟩
    intro L _ y hy
    simp [concatShift] at hy
  | t0 :: rest =>
    cases lastTs with
    | none =>
      simp only [concatShift]
      refine ⟨hf, ?_, Or.inr ⟨(t0 :: rest).getLastD t0, rfl, ?_, ?_⟩⟩
      · intro L hL
        exact absurd hL (by simp)
      · intro y hy
        exact le_getLastD_of_sorted hf hy t0
      · intro L hL
        exact absurd hL (by simp)
    | some L =>
      by_cases hge : L ≥ t0
      · have hδ : 0 ≤ syncDelta (t0 :: rest) := syncDelta_nonneg hf
        have hmono : ((t0 :: rest).map fun t =>
            t - t0 + (L + syncDelta (t0 :: rest))).Sorted (· ≤ ·) := by
          rw [List.Sorted, List.pairwise_map]
          apply List.Pairwise.imp ?_ hf
          intro a b hab
          linarith
        have hlow : ∀ y ∈ (t0 :: rest).map fun t =>
            t - t0 + (L + syncDelta (t0 :: rest)), L ≤ y := by
          intro y hy
          obtain ⟨t, ht, rfl⟩ := List.mem_map.1 hy
          have := sorted_head_le hf ht
          linarith
        simp only [concatShift, if_pos hge]
        refine ⟨hmono, ?_, Or.inr ⟨((t0 :: rest).map fun t =>
          t - t0 + (L + syncDelta (t0 :: rest))).getLastD 0, rfl, ?_, ?_⟩⟩
        · intro L2 hL2 y hy
          cases hL2
          exact hlow y hy
        · intro y hy
          exact le_getLastD_of_sorted hmono hy 0
        · intro L2 hL2
          cases hL2
          have hmem : t0 - t0 + (L + syncDelta (t0 :: rest)) ∈
              (t0 :: rest).map fun t => t - t0 + (L + syncDelta (t0 :: rest)) :=
            List.mem_map.2 ⟨t0, List.mem_cons_self t0 rest, rfl⟩
          exact le_trans (hlow _ hmem) (le_getLastD_of_sorted hmono hmem 0)
      · have hlt : L < t0 := not_le.1 hge
        simp only [concatShift, if_neg hge]
        refine ⟨hf, ?_, Or.inr ⟨(t0 :: rest).getLastD t0, rfl, ?_, ?_⟩⟩
        · intro L2 hL2 y hy
          cases hL2
          exact le_trans (le_of_lt hlt) (sorted_head_le hf hy)
        · intro y hy
          exact le_getLastD_of_sorted hf hy t0
        · intro L2 hL2
          cases hL2
          exact le_trans (le_of_lt hlt)
            (sorted_head_le hf (getLastD_mem _ (by simp) t0))

lemma concatGo_sorted :
    ∀ (files : List (List ℚ)) (lastTs : Option ℚ),
      (∀ f ∈ files, f.Sorted (· ≤ ·)) →
      (concatGo lastTs files).Sorted (· ≤ ·) ∧
      (∀ L, lastTs = some L → ∀ y ∈ concatGo lastTs files, L ≤ y)
  | [], lastTs, _ => by
    refine ⟨List.sorted_nil, ?_⟩
    intro L _ y hy
    simp [concatGo] at hy
  | f :: rest, lastTs, hall => by
    have hf : f.Sorted (· ≤ ·) := hall f (List.mem_cons_self f rest)
    have hrest : ∀ g ∈ rest, g.Sorted (· ≤ ·) :=
      fun g hg => hall g (List.mem_cons_of_mem f hg)
    obtain ⟨hsh, hlow, hcase⟩ := @concatShift_spec lastTs f hf
    obtain ⟨ihs, ihlow⟩ :=
      concatGo_sorted rest (concatShift lastTs f).2 hrest
    constructor
    · show ((concatShift lastTs f).1 ++
        concatGo (concatShift lastTs f).2 rest).Sorted (· ≤ ·)
      rw [List.Sorted, List.pairwise_append]
      refine ⟨hsh, ihs, ?_⟩
      intro a ha b hb
      rcases hcase with ⟨_, hnil⟩ | ⟨M, hM, hub, _⟩
      · rw [hnil] at ha
        simp at ha
      · exact le_trans (hub a ha) (ihlow M hM b hb)
    · intro L hL y hy
      rcases List.mem_append.1 hy with hy | hy
      · exact hlow L hL y hy
      · rcases hcase with ⟨heq, _⟩ | ⟨M, hM, _, hLM⟩
        · rw [heq] at ihlow hy
          exact ihlow L hL y hy
        · exact le_trans (hLM L hL) (ihlow M hM y hy)

/-- C2: `MDF.concatenate([A, B], sync=False)` on single-group files with
timestamps `[0,1,2,3,4]` and `[0,1,2]` yields the monotonic non-decreasing
timestamp sequence `[0,1,2,3,4,5,6,7]` of length 8; in general the
concatenated timestamp stream of sorted input files is monotonic
non-decreasing, and whenever the first timestamp of an appended file is not
past the previous last timestamp, its timestamps are rebased to start after
the previous last timestamp by the synthesized delta (the first sampling
interval when the file has at least two samples, otherwise 0.001). -/
theorem C2_concatenate_monotonic (files : List (List ℚ))
    (hf : ∀ f ∈ files, f.Sorted (· ≤ ·)) :
    concatenateTimestamps [[0, 1, 2, 3, 4], [0, 1, 2]] =
      [0, 1, 2, 3, 4, 5, 6, 7] ∧
    (concatenateTimestamps [[0, 1, 2, 3, 4], [0, 1, 2]]).length = 8 ∧
    (concatenateTimestamps files).Sorted (· ≤ ·) ∧
    (∀ L t0 rest, t0 ≤ L →
      (concatShift (some L) (t0 :: rest)).1 =
        (t0 :: rest).map fun t => t - t0 + (L + syncDelta (t0 :: rest))) := by
  refine ⟨?_, ?_, ?_, ?_⟩
  · norm_num [concatenateTimestamps, concatGo, concatShift, syncDelta]
  · norm_num [concatenateTimestamps, concatGo, concatShift, syncDelta]
  · exact (concatGo_sorted files none hf).1
  · intro L t0 rest h
    simp [concatShift, if_pos (show L ≥ t0 from h)]

/-- Witness for C2 at a concrete input. -/
theorem C2_concatenate_monotonic_witness :
    concatenateTimestamps [[0, 1, 2, 3, 4], [0, 1, 2]] =
      [0, 1, 2, 3, 4, 5, 6, 7] ∧
    (concatenateTimestamps [[0, 1, 2, 3, 4], [0, 1, 2]]).length = 8 ∧
    (concatenateTimestamps [[0, 1, 2, 3, 4], [0, 1, 2]]).Sorted (· ≤ ·) ∧
    (∀ L t0 rest, t0 ≤ L →
      (concatShift (some L) (t0 :: rest)).1 =
        (t0 :: rest).map fun t => t - t0 + (L + syncDelta (t0 :: rest))) :=
  C2_concatenate_monotonic [[0, 1, 2, 3, 4], [0, 1, 2]] (by decide)

/-! Model of the structural-compatibility check of `MDF.concatenate`
(src/asammdf/mdf.py lines 1800, 1899-1936). -/

/-- Embedding of the Python sorted() builtin over channel-name lists. -/
def pySorted (l : List String) : List String := l.insertionSort (· ≤ ·)

/-- The per-group channel-name comparison of `MDF.concatenate`
(src/asammdf/mdf.py lines 1922-1936): a later file must present, group by
group, the same channel names as the first file; an order difference with
equal sorted names is accepted (silent remap), otherwise the call raises. -/
def checkGroups : List (List String) → List (List String) →
    Except String Unit
  | [], [] => Except.ok ()
  | f :: fr, n :: nr =>
    if n = f then checkGroups fr nr
    else if pySorted n = pySorted f then checkGroups fr nr
    else Except.error "internal structure is different; different channels"
  | _, _ =>
    Except.error
      "internal structure is different; different channel groups count"

/-- Success test on a checked step (no exception was raised). -/
def exceptOk : Except String Unit → Bool
  | Except.ok _ => true
  | Except.error _ => false

/-- The group-count check of `MDF.concatenate` (src/asammdf/mdf.py lines
1904-1907) followed by the per-group name checks, applied to every file
after the first; a raised error propagates and aborts the call. -/
def checkRest (first : List (List String)) :
    List (List (List String)) → Except String Unit
  | [] => Except.ok ()
  | f :: fr =>
    if f.length ≠ first.length then
      Except.error
        "internal structure is different; different channel groups count"
    else if exceptOk (checkGroups first f) then
      checkRest first fr
    else
      checkGroups first f

/-- The structural-compatibility gate of `MDF.concatenate`: each input file
is reduced to its per-group channel-name lists; a mismatch raises
`MdfException`, fatal to the call (the error value carries no output MDF),
and otherwise the check passes. -/
def concatenateCheck : List (List (List String)) → Except String Unit
  | [] => Except.error "No files given for merge"
  | first :: rest => checkRest first rest

lemma pySorted_eq_iff_perm (a b : List String) :
    pySorted a = pySorted b ↔ a.Perm b := by
  constructor
  · intro h
    have ha : a.Perm (pySorted a) := (List.perm_insertionSort (· ≤ ·) a).symm
    have hb : (pySorted b).Perm b := List.perm_insertionSort (· ≤ ·) b
    rw [h] at ha
    exact ha.trans hb
  · intro h
    exact List.eq_of_perm_of_sorted
      (((List.perm_insertionSort _ a).trans h).trans
        (List.perm_insertionSort _ b).symm)
      (List.sorted_insertionSort _ a) (List.sorted_insertionSort _ b)

lemma checkGroups_ok_iff :
    ∀ a b : List (List String),
      checkGroups a b = Except.ok () ↔
        List.Forall₂ (fun x y => x.Perm y) a b
  | [], [] => by simp [checkGroups]
  | [], _ :: _ => by simp [checkGroups]
  | _ :: _, [] => by simp [checkGroups]
  | a :: ar, b :: br => by
    simp only [checkGroups]
    by_cases h1 : b = a
    · rw [if_pos h1]
      subst h1
      rw [checkGroups_ok_iff ar br]
      constructor
      · exact fun h => List.Forall₂.cons (List.Perm.refl b) h
      · exact fun h => (List.forall₂_cons.1 h).2
    · rw [if_neg h1]
      by_cases h2 : pySorted b = pySorted a
      · rw [if_pos h2]
        rw [checkGroups_ok_iff ar br]
        have hperm : a.Perm b := ((pySorted_eq_iff_perm b a).1 h2).symm
        constructor
        · exact fun h => List.Forall₂.cons hperm h
        · exact fun h => (List.forall₂_cons.1 h).2
      · rw [if_neg h2]
        constructor
        · intro h
          exact absurd h (by simp)
        · intro h
          exact absurd ((pySorted_eq_iff_perm b a).2
            (List.forall₂_cons.1 h).1.symm) h2

lemma checkRest_ok_iff (first : List (List String)) :
    ∀ rest : List (List (List String)),
      checkRest first rest = Except.ok () ↔
        ∀ f ∈ rest, List.Forall₂ (fun x y => x.Perm y) first f
  | [] => by simp [checkRest]
  | f :: fr => by
    simp only [checkRest]
    by_cases hlen : f.length ≠ first.length
    · rw [if_pos hlen]
      constructor
      · intro h
        exact absurd h (by simp)
      · intro h
        exact absurd (h f (List.mem_cons_self f fr)).length_eq
          fun heq => hlen heq.symm
    · rw [if_neg hlen]
      by_cases hcg : checkGroups first f = Except.ok ()
      · rw [if_pos (show exceptOk (checkGroups first f) = true by
          rw [hcg]; rfl), checkRest_ok_iff first fr]
        have hf2 := (checkGroups_ok_iff first f).1 hcg
        constructor
        · intro h g hg
          rcases List.mem_cons.1 hg with rfl | hg
          · exact hf2
          · exact h g hg
        · intro h g hg
          exact h g (List.mem_cons_of_mem f hg)
      · have hco : exceptOk (checkGroups first f) = false := by
          rcases hval : checkGroups first f with e | u
          · rfl
          · obtain ⟨⟩ := u
            exact absurd hval hcg
        rw [if_neg (by rw [hco]; exact Bool.false_ne_true)]
        constructor
        · intro h
          exact absurd h hcg
        · intro h
          exact absurd ((checkGroups_ok_iff first f).2
            (h f (List.mem_cons_self f fr))) hcg

/-- C3: `MDF.concatenate` passes its structural gate exactly when every
later file matches the channel-group structure of the first file: the same
number of channel groups and, for each corresponding group, the same
channel names (as a multiset: a pure order difference is silently remapped,
not an error).  On a mismatch the call raises, fatal to that call only, and
the `Except.error` value carries no output MDF. -/
theorem C3_concatenate_structural_mismatch (first : List (List String))
    (rest : List (List (List String))) :
    concatenateCheck (first :: rest) = Except.ok () ↔
      ∀ f ∈ rest, List.Forall₂ (fun a b => a.Perm b) first f :=
  checkRest_ok_iff first rest

/-! Model of `MDF.resample` (src/asammdf/mdf.py lines 2507-2595). -/

/-- Modelled from the spec: method `Signal.interp` of the signal module (not
under src/; called at src/asammdf/mdf.py lines 2561-2568).  A signal is
re-interpolated onto the raster: the output timestamps are exactly the
raster and every sample is computed from the original (timestamp, sample)
pairs by the configured per-kind interpolation; linear interpolation is
shown, the repeat-previous integer mode differs only in the sample
values. -/
def Signal.interp (sig : SigData) (raster : List ℚ) : SigData :=
  ⟨raster, raster.map (interpAt (sig.ts.zip sig.samples))⟩

/-- Modelled from the spec: `master_using_raster` of the utils module (not
under src/; called at src/asammdf/mdf.py line 2539): for a positive float
step the raster is the uniform grid with that step over the measurement
span. -/
def masterUsingRaster (t0 tlast r : ℚ) : List ℚ :=
  if 0 < r ∧ t0 ≤ tlast then
    (List.range (⌊(tlast - t0) / r⌋.toNat + 1)).map fun i => t0 + r * i
  else []

/-- A raster argument of `MDF.resample` (src/asammdf/mdf.py lines
2530-2539): a positive float step, a channel name (represented by the
timestamps that channel resolves to), or an explicit time array. -/
inductive RasterArg
  | step (r : ℚ)
  | channelName (ts : List ℚ)
  | explicitArr (ts : List ℚ)

/-- Raster resolution of `MDF.resample` (src/asammdf/mdf.py lines
2530-2539): a float step goes through `master_using_raster` over the
measurement span, a channel name contributes the timestamps of that
channel, anything else is used as an explicit time array. -/
def resolveRaster (span : ℚ × ℚ) : RasterArg → List ℚ
  | RasterArg.step r => masterUsingRaster span.1 span.2 r
  | RasterArg.channelName ts => ts
  | RasterArg.explicitArr ts => ts

/-- Per-group body of `MDF.resample` with the default
`time_from_zero=False` (src/asammdf/mdf.py lines 2551-2581): every selected
channel of the virtual group is re-interpolated onto the raster through
`Signal.interp`. -/
def MDF.resampleGroup (sigs : List SigData) (raster : List ℚ) :
    List SigData :=
  sigs.map fun sig => Signal.interp sig raster

/-- C4: every channel in the output of `resample(raster)` has timestamps
exactly equal to the supplied raster (or the raster derived from the step
or the channel name), in the raster's order, regardless of how irregular
the input sampling was. -/
theorem C4_resample_timestamps_equal_raster (sigs : List SigData)
    (span : ℚ × ℚ) (arg : RasterArg) :
    ∀ out ∈ MDF.resampleGroup sigs (resolveRaster span arg),
      out.ts = resolveRaster span arg := by
  intro out hout
  obtain ⟨sig, _, rfl⟩ := List.mem_map.1 hout
  rfl

/-- Witness for C4 at a concrete input. -/
theorem C4_resample_timestamps_equal_raster_witness :
    (Signal.interp ⟨[0, 2], [10, 30]⟩ [1]).ts =
      resolveRaster (0, 0) (RasterArg.explicitArr [1]) :=
  C4_resample_timestamps_equal_raster [⟨[0, 2], [10, 30]⟩] (0, 0)
    (RasterArg.explicitArr [1]) (Signal.interp ⟨[0, 2], [10, 30]⟩ [1])
    (by simp [MDF.resampleGroup, resolveRaster])

/-! Model of the summary bookkeeping of `MDF._extract_can_logging`
(src/asammdf/mdf.py lines 4105-4344). -/

/-- Running summary state of a CAN extraction: `total` mirrors
`total_unique_ids` (a set of (folded id, original id) pairs, line 4200),
`found` mirrors the per-catalog `found_ids` set of (id, message name)
pairs (line 4212), and `flags` mirrors the `unknown_ids` mapping before its
final reduction: one appended boolean per processed unique-id record, true
when the id was absent from the catalog (lines 4209 and 4218). -/
structure CanTally where
  total : Finset (ℕ × ℕ)
  found : Finset (ℕ × String)
  flags : List (ℕ × Bool)
  deriving DecidableEq

/-- Per-unique-id-record step of `_extract_can_logging` (src/asammdf/mdf.py
lines 4200-4218): the record joins `total_unique_ids`; a catalog miss
appends True under its id in `unknown_ids`, a hit adds the (id, name) pair
to `found_ids` and appends False. -/
def canStep (catalog : List (ℕ × String)) (t : CanTally) (p : ℕ × ℕ) :
    CanTally :=
  match catalog.lookup p.1 with
  | none => ⟨insert p t.total, t.found, t.flags ++ [(p.1, true)]⟩
  | some nm =>
    ⟨insert p t.total, insert (p.1, nm) t.found, t.flags ++ [(p.1, false)]⟩

/-- The summary of a single-catalog extraction over the stream of unique-id
records observed across fragments and buses. -/
def canSummary (catalog : List (ℕ × String)) (observed : List (ℕ × ℕ)) :
    CanTally :=
  observed.foldl (canStep catalog) ⟨∅, ∅, []⟩

/-- Final reduction of `unknown_ids` (src/asammdf/mdf.py lines 4333-4335):
the ids all of whose recorded flags are True. -/
def unknownIds (flags : List (ℕ × Bool)) : Finset ℕ :=
  ((flags.map Prod.fst).filter fun k =>
    (flags.filter fun q => decide (q.1 = k)).all fun q => q.2).toFinset

lemma canSummary_go_total (c : List (ℕ × String)) :
    ∀ (obs : List (ℕ × ℕ)) (t : CanTally),
      (obs.foldl (canStep c) t).total = t.total ∪ obs.toFinset
  | [], t => by simp
  | p :: rest, t => by
    rw [List.foldl_cons, canSummary_go_total c rest]
    have hstep : (canStep c t p).total = insert p t.total := by
      cases hl : c.lookup p.1 <;> simp [canStep, hl]
    rw [hstep, List.toFinset_cons, Finset.insert_union, Finset.union_insert]

lemma canSummary_go_found (c : List (ℕ × String)) :
    ∀ (obs : List (ℕ × ℕ)) (t : CanTally),
      (obs.foldl (canStep c) t).found = t.found ∪
        (obs.filterMap fun p =>
          (c.lookup p.1).map fun nm => (p.1, nm)).toFinset
  | [], t => by simp
  | p :: rest, t => by
    rw [List.foldl_cons, canSummary_go_found c rest]
    cases hl : c.lookup p.1 with
    | none => simp [canStep, hl, List.filterMap_cons]
    | some nm =>
      have hred : (Option.map (fun nm2 => ((p.1 : ℕ), nm2)) (some nm)) =
          some (p.1, nm) := rfl
      simp only [canStep, hl, List.filterMap_cons, hred]
      rw [List.toFinset_cons, Finset.insert_union, Finset.union_insert]

lemma canSummary_go_flags (c : List (ℕ × String)) :
    ∀ (obs : List (ℕ × ℕ)) (t : CanTally),
      (obs.foldl (canStep c) t).flags = t.flags ++
        obs.map fun p => (p.1, (c.lookup p.1).isNone)
  | [], t => by simp
  | p :: rest, t => by
    rw [List.foldl_cons, canSummary_go_flags c rest]
    cases hl : c.lookup p.1 with
    | none => simp [canStep, hl]
    | some nm => simp [canStep, hl]

lemma unknownIds_canSummary (c : List (ℕ × String)) (obs : List (ℕ × ℕ)) :
    unknownIds (canSummary c obs).flags =
      (obs.map Prod.fst).toFinset.filter fun k => c.lookup k = none := by
  have hflags : (canSummary c obs).flags =
      obs.map fun p => (p.1, (c.lookup p.1).isNone) := by
    rw [canSummary, canSummary_go_flags]
    simp
  rw [unknownIds, hflags]
  ext k
  simp only [List.mem_toFinset, List.mem_filter, Finset.mem_filter,
    List.mem_map, List.map_map, Function.comp]
  constructor
  · rintro ⟨⟨p, hp, hpk⟩, hall⟩
    refine ⟨⟨p, hp, hpk⟩, ?_⟩
    have hmem : ((p.1 : ℕ), (c.lookup p.1).isNone) ∈
        (obs.map fun q => (q.1, (c.lookup q.1).isNone)).filter
          fun q => decide (q.1 = k) := by
      rw [List.mem_filter]
      refine ⟨List.mem_map.2 ⟨p, hp, rfl⟩, by simp [hpk]⟩
    have := (List.all_eq_true.1 hall) _ hmem
    rw [hpk] at this
    simpa [Option.isNone_iff_eq_none] using this
  · rintro ⟨⟨p, hp, hpk⟩, hnone⟩
    refine ⟨⟨p, hp, hpk⟩, ?_⟩
    rw [List.all_eq_true]
    rintro q hq
    rw [List.mem_filter] at hq
    obtain ⟨hq1, hq2⟩ := hq
    obtain ⟨p2, hp2, rfl⟩ := List.mem_map.1 hq1
    simp only [decide_eq_true_eq] at hq2
    rw [hq2, hnone]
    rfl

lemma canSummary_total (c : List (ℕ × String)) (obs : List (ℕ × ℕ)) :
    (canSummary c obs).total = obs.toFinset := by
  rw [canSummary, canSummary_go_total]
  simp

lemma canSummary_found (c : List (ℕ × String)) (obs : List (ℕ × ℕ)) :
    (canSummary c obs).found =
      (obs.filterMap fun p =>
        (c.lookup p.1).map fun nm => (p.1, nm)).toFinset := by
  rw [canSummary, canSummary_go_found]
  simp

lemma found_card_eq (c : List (ℕ × String)) (obs : List (ℕ × ℕ)) :
    (canSummary c obs).found.card =
      ((obs.map Prod.fst).toFinset.filter fun k =>
        (c.lookup k).isSome).card := by
  rw [canSummary_found]
  have himg : (obs.filterMap fun p =>
      (c.lookup p.1).map fun nm => (p.1, nm)).toFinset =
      ((obs.map Prod.fst).toFinset.filter fun k =>
        (c.lookup k).isSome).image fun k => (k, (c.lookup k).getD "") := by
    ext q
    simp only [List.mem_toFinset, List.mem_filterMap, Finset.mem_image,
      Finset.mem_filter, List.mem_toFinset, List.mem_map]
    constructor
    · rintro ⟨p, hp, hq⟩
      rcases hl : c.lookup p.1 with _ | nm
      · rw [hl] at hq
        simp at hq
      · rw [hl] at hq
        have hq2 : q = (p.1, nm) := by simpa using hq.symm
        refine ⟨p.1, ⟨⟨p, hp, rfl⟩, by rw [hl]; rfl⟩, ?_⟩
        rw [hl, hq2]
        rfl
    · rintro ⟨k, ⟨⟨p, hp, hpk⟩, hsome⟩, hq⟩
      refine ⟨p, hp, ?_⟩
      rcases hl : c.lookup k with _ | nm
      · rw [hl] at hsome
        simp at hsome
      · rw [hpk, hl, ← hq, hl]
        rfl
  rw [himg]
  exact Finset.card_image_of_injective _ fun a b hab => congrArg Prod.fst hab

/-- C7 amended: for a single-catalog extraction whose unique-id records are
diagonal pairs (the non-J1939 and consolidated-J1939 cases, where the code
stores each id as an (id, id) record), the summary satisfies
`len(found_ids) + len(unknown_ids) == len(total_unique_ids)`: every distinct
observed arbitration id is counted exactly once, as found or as unknown,
and unmatched ids are tallied, never raised. -/
theorem C7_can_summary_totals (catalog : List (ℕ × String))
    (observed : List (ℕ × ℕ)) (hdiag : ∀ p ∈ observed, p.2 = p.1) :
    (canSummary catalog observed).found.card +
      (unknownIds (canSummary catalog observed).flags).card =
      (canSummary catalog observed).total.card := by
  rw [found_card_eq, unknownIds_canSummary, canSummary_total]
  have h1 : observed.toFinset =
      (observed.map Prod.fst).toFinset.image fun k => (k, k) := by
    ext p
    simp only [List.mem_toFinset, Finset.mem_image, List.mem_toFinset,
      List.mem_map]
    constructor
    · intro hp
      obtain ⟨a, b⟩ := p
      have hb : b = a := hdiag (a, b) hp
      refine ⟨a, ⟨(a, b), hp, rfl⟩, ?_⟩
      rw [hb]
    · rintro ⟨k, ⟨p2, hp2, rfl⟩, rfl⟩
      obtain ⟨a, b⟩ := p2
      have hb : b = a := hdiag (a, b) hp2
      show (a, a) ∈ observed
      rw [hb] at hp2
      exact hp2
  rw [h1, Finset.card_image_of_injective _
    fun a b hab => congrArg Prod.fst hab]
  have hcongr : ((observed.map Prod.fst).toFinset.filter fun k =>
      catalog.lookup k = none) =
      ((observed.map Prod.fst).toFinset.filter fun k =>
        ¬((catalog.lookup k).isSome = true)) := by
    apply Finset.filter_congr
    intro k _
    rw [Option.not_isSome_iff_eq_none]
  rw [hcongr]
  exact Finset.filter_card_add_filter_neg_card_eq_card _

/-- Witness for the amended C7 at a concrete input. -/
theorem C7_can_summary_totals_witness :
    (canSummary [(1, "M"), (2, "N")] [(1, 1), (3, 3)]).found.card +
      (unknownIds (canSummary [(1, "M"), (2, "N")] [(1, 1), (3, 3)]).flags).card =
      (canSummary [(1, "M"), (2, "N")] [(1, 1), (3, 3)]).total.card :=
  C7_can_summary_totals [(1, "M"), (2, "N")] [(1, 1), (3, 3)] (by decide)

/-- C7 counterexample: in a J1939 extraction with `consolidated_j1939=False`
two distinct original arbitration ids folding to the same PGN yield two
records in `total_unique_ids` but only one found entry and no unknown
entry, so the claimed equation fails as stated for that run. -/
theorem C7_counterexample :
    (canSummary [(1, "M")] [(1, 10), (1, 11)]).found.card +
        (unknownIds (canSummary [(1, "M")] [(1, 10), (1, 11)]).flags).card ≠
      (canSummary [(1, "M")] [(1, 10), (1, 11)]).total.card := by
  decide

/-! Model of the cooperative-termination check shared by the structural
operations convert, cut, filter, concatenate and stack (src/asammdf/mdf.py
lines 589-590, 864-865, 1674-1675, 2058-2059, 2233-2234). -/

/-- The per-virtual-group loop of a structural operation: each group is
processed into the output, and after each group the process-wide terminate
flag is read; when set, the operation returns None instead of the built
output, and no exception is raised (the model is a total function into
`Option`). -/
def runStructuralLoop {α β : Type} (terminate : Bool) (f : α → β) :
    List α → Option (List β)
  | [] => some []
  | g :: rest =>
    if terminate then none
    else (runStructuralLoop terminate f rest).map fun out => f g :: out

/-- C8: when the process-wide terminate flag is set and at least one
virtual group remains, the structural operation returns None (no result) at
the next virtual-group boundary instead of raising an exception; when the
flag is clear the operation runs to completion over all groups. -/
theorem C8_terminate_returns_none {α β : Type} (terminate : Bool)
    (f : α → β) (groups : List α) :
    (terminate = true → groups ≠ [] →
      runStructuralLoop terminate f groups = none) ∧
    (terminate = false →
      runStructuralLoop terminate f groups = some (groups.map f)) := by
  constructor
  · intro ht hne
    cases groups with
    | nil => exact absurd rfl hne
    | cons g rest => simp [runStructuralLoop, ht]
  · intro hf
    subst hf
    induction groups with
    | nil => simp [runStructuralLoop]
    | cons g rest ih => simp [runStructuralLoop, ih]

/-- Witness for C8 at a concrete input. -/
theorem C8_terminate_returns_none_witness :
    runStructuralLoop true (fun n : ℕ => n + 1) [0] = none ∧
    runStructuralLoop false (fun n : ℕ => n + 1) [0] = some [1] :=
  ⟨(C8_terminate_returns_none true (fun n : ℕ => n + 1) [0]).1 rfl
      (by decide),
   (C8_terminate_returns_none false (fun n : ℕ => n + 1) [0]).2 rfl⟩

/-! Model of the copy_on_get toggling of the self-toggling bulk operations
convert, cut, filter and cleanup_timestamps (src/asammdf/mdf.py lines
562-593, 658-867, 1631-1677, 4708-4769). -/

/-- Control flow of the group loop of a bulk operation: only the choice
between completing and the cooperative-termination early return is kept. -/
def bulkLoop (terminate : Bool) : List Unit → Option Unit
  | [] => some ()
  | _ :: rest => if terminate then none else bulkLoop terminate rest

/-- Effect of a bulk operation on the copy_on_get configuration of the
source instance (`MDF.cut`, src/asammdf/mdf.py lines 658 and 864-867): the
flag is set False before the group loop; on normal completion it is set
back True before the result is returned; the terminate early return (bare
`return`, lines 864-865) skips the restore.  The pair holds the flag value
at return time and the returned result. -/
def cutCopyOnGet (terminate : Bool) (groups : List Unit) :
    Bool × Option Unit :=
  match bulkLoop terminate groups with
  | none => (false, none)
  | some _ => (true, some ())

/-- C9 counterexample: on the cooperative-termination return path of
`MDF.cut` the operation returns with copy_on_get still False: the claim
that every return path restores the configuration fails. -/
theorem C9_counterexample :
    (cutCopyOnGet true [()]).2 = none ∧
    ¬((cutCopyOnGet true [()]).1 = true) := by
  decide

/-- C9 amended: every bulk operation that sets copy_on_get to False
restores it to True before returning on every path that produces a result;
on the cooperative-termination early return the operation yields no result
and the flag is left False. -/
theorem C9_copy_on_get_restored (terminate : Bool) (groups : List Unit) :
    ((cutCopyOnGet terminate groups).2 ≠ none →
      (cutCopyOnGet terminate groups).1 = true) ∧
    ((cutCopyOnGet terminate groups).2 = none →
      (cutCopyOnGet terminate groups).1 = false) := by
  cases h : bulkLoop terminate groups <;> simp [cutCopyOnGet, h]

/-- Witness for the amended C9 at a concrete input. -/
theorem C9_copy_on_get_restored_witness :
    (cutCopyOnGet false [()]).1 = true ∧
    (cutCopyOnGet true [()]).1 = false :=
  ⟨(C9_copy_on_get_restored false [()]).1 (by decide),
   (C9_copy_on_get_restored true [()]).2 (by decide)⟩

/-! Model of `MDF.whereis` (src/asammdf/mdf.py lines 4774-4817) and
`MDF.__contains__` (lines 519-521). -/

/-- A Python dict read `self.channels_db[channel]`: a missing key raises
`KeyError`, modelled as `Except.error`. -/
def dictGet (db : List (String × List (ℕ × ℕ))) (channel : String) :
    Except String (List (ℕ × ℕ)) :=
  match db.lookup channel with
  | none => Except.error "KeyError"
  | some occs => Except.ok occs

/-- Modelled from the spec: `MDF._filter_occurrences` lives in the
version-specific engines, not under src/; it keeps the occurrences passing
the optional source-name, source-path and acquisition-name filters, here
abstracted as one predicate. -/
def filterOccurrences (occs : List (ℕ × ℕ)) (pred : ℕ × ℕ → Bool) :
    List (ℕ × ℕ) :=
  occs.filter pred

/-- `MDF.whereis` (src/asammdf/mdf.py lines 4803-4817): the channel is
looked up in channels_db; a `KeyError` is caught and becomes the empty
tuple, otherwise the tuple of filtered occurrences is returned.  The
function only reads the index. -/
def whereis (db : List (String × List (ℕ × ℕ))) (channel : String)
    (pred : ℕ × ℕ → Bool) : List (ℕ × ℕ) :=
  match dictGet db channel with
  | Except.error _ => []
  | Except.ok occs => filterOccurrences occs pred

/-- C10: for every channel name absent from the channels_db index,
`whereis` returns the empty tuple rather than propagating the `KeyError`
raised by the dict read, and for every present name it returns the
occurrences passing the optional source/acquisition filters; the lookup
never mutates the index (the embedding reads the db value only). -/
theorem C10_whereis_missing_returns_empty
    (db : List (String × List (ℕ × ℕ))) (channel : String)
    (pred : ℕ × ℕ → Bool) :
    (db.lookup channel = none →
      dictGet db channel = Except.error "KeyError" ∧
      whereis db channel pred = []) ∧
    (∀ occs, db.lookup channel = some occs →
      whereis db channel pred = occs.filter pred) := by
  constructor
  · intro h
    constructor
    · simp [dictGet, h]
    · simp [whereis, dictGet, h]
  · intro occs h
    simp [whereis, dictGet, filterOccurrences, h]

/-- Witness for C10 at a concrete input. -/
theorem C10_whereis_missing_returns_empty_witness :
    (dictGet [("a", [(0, 1)])] "b" = Except.error "KeyError" ∧
      whereis [("a", [(0, 1)])] "b" (fun _ => true) = []) ∧
    whereis [("a", [(0, 1)])] "a" (fun _ => true) =
      ([((0 : ℕ), (1 : ℕ))]).filter (fun _ => true) :=
  ⟨(C10_whereis_missing_returns_empty [("a", [(0, 1)])] "b"
      (fun _ => true)).1 (by decide),
   (C10_whereis_missing_returns_empty [("a", [(0, 1)])] "a"
      (fun _ => true)).2 [(0, 1)] (by decide)⟩

end Asammdf
